import Mathlib

/-!
Verification development for the `CitationGraph` template in
`src/citation_graph.h`.

Modelling conventions (shallow embedding of the C++ source):

* `Publication::id_type` is instantiated with `Nat`; the `Publication`
  payload is constructed from its key alone and observable only through
  `get_id()`, so a publication object is modelled by its key.
* Every `std::make_shared<Node>` allocation is given a fresh serial
  number drawn from an allocation counter (`nextSerial`).  The live
  `Node` objects form a heap `nodes : List (Nat × Node)` keyed by
  serial.  A `std::shared_ptr<Node>` / `std::weak_ptr<Node>` is
  modelled by the serial of the node it designates.
* `CitationGraph::publications` (a `std::map<id_type, weak_ptr<Node>>`)
  is modelled as an association list `publications : List (Nat × Nat)`
  from key to node serial with pairwise distinct keys; only keyed
  lookup, insertion and erasure of this map are observable, never its
  iteration order.
* `Node::children` is a `std::set<shared_ptr<Node>, owner_less>`:
  it is ordered by the address of the shared-pointer control block,
  a key-independent total order on node objects.  It is modelled as a
  list of serials kept strictly sorted (allocation order standing in
  for address order), which also captures the set's deduplication.
* `Node::parents` is a `std::vector<weak_ptr<Node>>`: a list of serials
  in insertion order, with duplicates.
* Node destruction runs when the last strong reference disappears; the
  destructor erases the node's registry entry via its remembered
  iterator.  Strong references are the graph's `root` member and the
  entries of `children` sets.  In `create`, the local `shared_ptr node`
  dies when the call returns, so the new node survives exactly when
  some parent's `children` set holds it; a node collected there has an
  empty `children` set, so no further cascade is possible and a single
  erasure is the exact effect.
* Only the domain errors of the source are modelled
  (`PublicationAlreadyCreated`, `PublicationNotFound`,
  `TriedToRemoveRoot`); allocation failure is out of scope.
* In `CitationGraph::remove` the source spells two iterator accesses as
  `publication->end()` and `publication->lock()`; these are read as the
  evident `publications->end()` and `publication->second.lock()` (the
  iterator dereferences to a map entry).  The guard
  `publication->second.lock()->getPublication().get_id() == id` is kept
  exactly as written: it compares the found node's own key with the
  argument.
* Every operation is a function `CitationGraph → Result × CitationGraph`
  returning the C++ return value (or thrown exception) together with
  the post-state, so frame properties are provable rather than assumed.
-/

/-- The three exception types of `citation_graph.h`. -/
inductive CGErr where
  | publicationAlreadyCreated
  | publicationNotFound
  | triedToRemoveRoot
  deriving DecidableEq, Repr

instance {ε α : Type} [DecidableEq ε] [DecidableEq α] : DecidableEq (Except ε α) := fun a b =>
  match a, b with
  | .ok x, .ok y => if h : x = y then .isTrue (by rw [h]) else .isFalse (by simp [h])
  | .error x, .error y => if h : x = y then .isTrue (by rw [h]) else .isFalse (by simp [h])
  | .ok _, .error _ => .isFalse (by simp)
  | .error _, .ok _ => .isFalse (by simp)

/-- One `CitationGraph::Node` object: the owned `Publication` (modelled
by its key), the strong `children` set (serials, sorted by the
owner-order stand-in) and the weak `parents` vector (serials, insertion
order).  The `map`/`map_iterator` members are captured by the
destructor effect `eraseNode`. -/
structure CitationGraph.Node where
  pubId : Nat
  children : List Nat
  parents : List Nat
  deriving DecidableEq, Repr

/-- State of a `CitationGraph<Publication>` object: the registry
`publications`, the heap of live `Node` objects keyed by allocation
serial, the serial held by the strong `root` member, and the allocation
counter. -/
structure CitationGraph where
  publications : List (Nat × Nat)
  nodes : List (Nat × CitationGraph.Node)
  root : Nat
  nextSerial : Nat
  deriving DecidableEq, Repr

/-- Keyed lookup in an association list (`std::map::find`). -/
def lookA {α : Type} (k : Nat) : List (Nat × α) → Option α
  | [] => none
  | p :: l => if k = p.1 then some p.2 else lookA k l

/-- Keyed erasure of the first matching entry (`std::map::erase` on a
map with unique keys). -/
def eraseA {α : Type} (k : Nat) : List (Nat × α) → List (Nat × α)
  | [] => []
  | p :: l => if k = p.1 then l else p :: eraseA k l

/-- Update the entry under `k` in place. -/
def modifyA {α : Type} (k : Nat) (f : α → α) : List (Nat × α) → List (Nat × α)
  | [] => []
  | p :: l => if k = p.1 then (p.1, f p.2) :: l else p :: modifyA k f l

/-- Ordered, deduplicating insertion (`std::set::insert` under the
owner order). -/
def insertSorted (s : Nat) : List Nat → List Nat
  | [] => [s]
  | x :: xs => if s < x then s :: x :: xs else if s = x then x :: xs else x :: insertSorted s xs

namespace CitationGraph

/-- Placeholder node returned by total lookup on a dead serial; never
reached on the states this development works with. -/
def defaultNode : Node := ⟨0, [], []⟩

/-- `publications->find(id)`, as the serial of the found node. -/
def findSerial (g : CitationGraph) (id : Nat) : Option Nat :=
  lookA id g.publications

/-- Dereference a (weak) node reference; total with `defaultNode`. -/
def getNode (g : CitationGraph) (s : Nat) : Node :=
  (lookA s g.nodes).getD defaultNode

/-- `node->getPublication().get_id()`. -/
def pubIdOf (g : CitationGraph) (s : Nat) : Nat :=
  (g.getNode s).pubId

/-- `Node::getChildrenIds`: keys of the children, in the children-set
order. -/
def childIds (g : CitationGraph) (s : Nat) : List Nat :=
  (g.getNode s).children.map g.pubIdOf

/-- `Node::getParentsIds`: keys of the parents, in insertion order. -/
def parentIds (g : CitationGraph) (s : Nat) : List Nat :=
  (g.getNode s).parents.map g.pubIdOf

/-- The constructor `CitationGraph(stem_id)`: fresh registry, a root
node carrying the publication built from `stem_id`, registered under
`stem_id`. -/
def init (stemId : Nat) : CitationGraph :=
  { publications := [(stemId, 0)]
    nodes := [(0, ⟨stemId, [], []⟩)]
    root := 0
    nextSerial := 1 }

/-- `get_root_id`. -/
def get_root_id (g : CitationGraph) : Nat × CitationGraph :=
  (g.pubIdOf g.root, g)

/-- `exists` (spelled `exists_`: `exists` is reserved in Lean). -/
def exists_ (g : CitationGraph) (id : Nat) : Bool × CitationGraph :=
  ((g.findSerial id).isSome, g)

/-- `get_children`. -/
def get_children (g : CitationGraph) (id : Nat) : Except CGErr (List Nat) × CitationGraph :=
  match g.findSerial id with
  | none => (.error .publicationNotFound, g)
  | some s => (.ok (g.childIds s), g)

/-- `get_parents`. -/
def get_parents (g : CitationGraph) (id : Nat) : Except CGErr (List Nat) × CitationGraph :=
  match g.findSerial id with
  | none => (.error .publicationNotFound, g)
  | some s => (.ok (g.parentIds s), g)

/-- `operator[]`: the returned `Publication&` is observable through
`get_id()` only, so it is modelled by that key. -/
def opIndex (g : CitationGraph) (id : Nat) : Except CGErr Nat × CitationGraph :=
  match g.findSerial id with
  | none => (.error .publicationNotFound, g)
  | some s => (.ok (g.pubIdOf s), g)

/-- Replace the node object stored under serial `s`. -/
def modifyNode (g : CitationGraph) (s : Nat) (f : Node → Node) : CitationGraph :=
  { g with nodes := modifyA s f g.nodes }

/-- `add_citation(child_id, parent_id)`: look both ids up; when both are
registered, `addParent` pushes the parent onto the child's weak vector
and `addChild` inserts the child into the parent's strong set;
otherwise throw `PublicationNotFound`.  (The rollback `removeLastParent`
only runs on allocation failure of `addChild`, which is out of
scope.) -/
def add_citation (g : CitationGraph) (child_id parent_id : Nat) :
    Except CGErr Unit × CitationGraph :=
  match g.findSerial child_id, g.findSerial parent_id with
  | some cs, some ps =>
      let g1 := g.modifyNode cs (fun n => { n with parents := n.parents ++ [ps] })
      let g2 := g1.modifyNode ps (fun n => { n with children := insertSorted cs n.children })
      (.ok (), g2)
  | _, _ => (.error .publicationNotFound, g)

/-- Does any strong reference (the graph's `root` member or some
`children` set) keep serial `s` alive? -/
def hasStrongRef (g : CitationGraph) (s : Nat) : Bool :=
  (g.root == s) || g.nodes.any (fun q => q.2.children.contains s)

/-- Effect of `~Node` on the observable state: the node object
disappears and its registry entry (key `id`, remembered via
`map_iterator`) is erased. -/
def eraseNode (g : CitationGraph) (id s : Nat) : CitationGraph :=
  { g with publications := eraseA id g.publications, nodes := eraseA s g.nodes }

/-- The `create(id, parent_ids)` overload: reject an already-registered
`id`; check that every listed parent is registered (throwing
`PublicationNotFound` at the first missing one — no state differs from
checking them all); then allocate and register the node and run
`add_citation(id, p)` for each listed parent (these cannot throw a
domain error: all ids involved are registered).  When the call returns,
the local `shared_ptr` dies and the new node survives only if some
strong reference to it was installed.  Note the source does not treat
an empty `parent_ids` specially: the validation loop simply has nothing
to check. -/
def create (g : CitationGraph) (id : Nat) (parent_ids : List Nat) :
    Except CGErr Unit × CitationGraph :=
  if (g.findSerial id).isSome then (.error .publicationAlreadyCreated, g)
  else if parent_ids.any (fun p => (g.findSerial p).isNone) then
    (.error .publicationNotFound, g)
  else
    let s := g.nextSerial
    let g1 : CitationGraph :=
      { g with publications := (id, s) :: g.publications
               nodes := (s, ⟨id, [], []⟩) :: g.nodes
               nextSerial := s + 1 }
    let g2 := parent_ids.foldl (fun acc p => (add_citation acc id p).snd) g1
    if hasStrongRef g2 s then (.ok (), g2) else (.ok (), g2.eraseNode id s)

/-- `remove(id)`: as written in the source (with the two iterator
typos read as noted in the file header), a missing id throws
`PublicationNotFound`; otherwise the guard compares the found node's
own key with `id` and throws `TriedToRemoveRoot` when they agree.  The
final branch models the observable effect of `removeNode` (whose
parent-detach loop body is commented out in the source) followed by
the destruction of the rogue `shared_ptr me{this}`: the node and its
registry entry disappear. -/
def remove (g : CitationGraph) (id : Nat) : Except CGErr Unit × CitationGraph :=
  match g.findSerial id with
  | none => (.error .publicationNotFound, g)
  | some s =>
      if g.pubIdOf s = id then (.error .triedToRemoveRoot, g)
      else (.ok (), g.eraseNode id s)

/-- States reachable by the public interface. -/
inductive Reach : CitationGraph → Prop where
  | start (stemId : Nat) : Reach (CitationGraph.init stemId)
  | stepCreate (g : CitationGraph) (id : Nat) (ps : List Nat) :
      Reach g → Reach (CitationGraph.create g id ps).snd
  | stepCite (g : CitationGraph) (c p : Nat) :
      Reach g → Reach (CitationGraph.add_citation g c p).snd
  | stepRemove (g : CitationGraph) (id : Nat) :
      Reach g → Reach (CitationGraph.remove g id).snd

/-- States reachable without `add_citation`. -/
inductive ReachNC : CitationGraph → Prop where
  | start (stemId : Nat) : ReachNC (CitationGraph.init stemId)
  | stepCreate (g : CitationGraph) (id : Nat) (ps : List Nat) :
      ReachNC g → ReachNC (CitationGraph.create g id ps).snd
  | stepRemove (g : CitationGraph) (id : Nat) :
      ReachNC g → ReachNC (CitationGraph.remove g id).snd

/-- A strong (parent→child ownership) edge. -/
def strongEdge (g : CitationGraph) (a b : Nat) : Prop :=
  b ∈ (g.getNode a).children

/-- Strong-edge ancestry: a nonempty path of strong edges. -/
def Ancestor (g : CitationGraph) (a b : Nat) : Prop :=
  Relation.TransGen (strongEdge g) a b

/-- Well-formedness of a graph state: registry keys and serial values
are pairwise distinct, node serials are distinct and below the
allocation counter, registry entries and node objects point at each
other consistently (each entry designates a live node carrying the
publication built from the entry's key, and each live node is
registered under its own key), and every `children` set holds live
serials in strictly sorted order. -/
structure WF (g : CitationGraph) : Prop where
  pubsKeys : (g.publications.map Prod.fst).Nodup
  pubsVals : (g.publications.map Prod.snd).Nodup
  nodesKeys : (g.nodes.map Prod.fst).Nodup
  bound : ∀ q ∈ g.nodes, q.1 < g.nextSerial
  pubsNodes : ∀ p ∈ g.publications, ∃ n, lookA p.2 g.nodes = some n ∧ n.pubId = p.1
  nodesPubs : ∀ q ∈ g.nodes, lookA q.2.pubId g.publications = some q.1
  childrenLive : ∀ q ∈ g.nodes, ∀ c ∈ q.2.children, (lookA c g.nodes).isSome
  childrenSorted : ∀ q ∈ g.nodes, q.2.children.Pairwise (· < ·)

/-- Every strong edge goes from an older serial to a younger one; this
is the structural reason the states reached without `add_citation` are
acyclic. -/
def SerialMono (g : CitationGraph) : Prop :=
  ∀ q ∈ g.nodes, ∀ c ∈ q.2.children, q.1 < c

end CitationGraph

/-- Root `0` with one publication `1` created under it. -/
def gChain1 : CitationGraph :=
  (CitationGraph.create (CitationGraph.init 0) 1 [0]).snd

/-- `gChain1` extended with publication `2` created under `1`: the
chain `0 → 1 → 2`. -/
def gChain2 : CitationGraph :=
  (CitationGraph.create gChain1 2 [1]).snd

/-- The root citing itself: `add_citation(0, 0)` on a fresh graph. -/
def gSelf : CitationGraph :=
  (CitationGraph.add_citation (CitationGraph.init 0) 0 0).snd

/-- Publications `2` and then `1` created under the root, in that
order: the children set of the root lists their serials in allocation
order, so their keys come out as `[2, 1]`. -/
def gTwo : CitationGraph :=
  (CitationGraph.create (CitationGraph.create (CitationGraph.init 0) 2 [0]).snd 1 [0]).snd

/-- `gChain1` after one redundant `add_citation(1, 0)`. -/
def gDup1 : CitationGraph :=
  (CitationGraph.add_citation gChain1 1 0).snd

/-- `gChain1` after two redundant `add_citation(1, 0)` calls. -/
def gDup2 : CitationGraph :=
  (CitationGraph.add_citation gDup1 1 0).snd

/-! ### Association-list and sorted-insertion lemmas -/

theorem lookA_eq_none_iff {α : Type} {k : Nat} {l : List (Nat × α)} :
    lookA k l = none ↔ k ∉ l.map Prod.fst := by
  induction l with
  | nil => simp [lookA]
  | cons p l ih =>
    simp only [lookA, List.map_cons, List.mem_cons]
    by_cases h : k = p.1
    · simp [h]
    · simp [h, ih]

theorem lookA_mem {α : Type} {k : Nat} {v : α} {l : List (Nat × α)}
    (h : lookA k l = some v) : (k, v) ∈ l := by
  induction l with
  | nil => simp [lookA] at h
  | cons p l ih =>
    simp only [lookA] at h
    split at h
    · next heq =>
      injection h with h
      subst heq h
      exact List.mem_cons_self _ _
    · exact List.mem_cons_of_mem _ (ih h)

theorem lookA_isSome_iff {α : Type} {k : Nat} {l : List (Nat × α)} :
    (lookA k l).isSome = true ↔ k ∈ l.map Prod.fst := by
  cases h : lookA k l with
  | none => simp [lookA_eq_none_iff.mp h]
  | some v => simp [List.mem_map_of_mem Prod.fst (lookA_mem h)]

theorem lookA_eq_some_of_mem {α : Type} {l : List (Nat × α)} {p : Nat × α}
    (hnd : (l.map Prod.fst).Nodup) (hm : p ∈ l) : lookA p.1 l = some p.2 := by
  induction l with
  | nil => simp at hm
  | cons q l ih =>
    rcases List.mem_cons.mp hm with rfl | hm
    · simp [lookA]
    · have hq : q.1 ∉ l.map Prod.fst := (List.nodup_cons.mp hnd).1
      have hne : p.1 ≠ q.1 := by
        intro h
        exact hq (h ▸ List.mem_map_of_mem Prod.fst hm)
      simp only [lookA, if_neg hne]
      exact ih (List.nodup_cons.mp hnd).2 hm

theorem modifyA_map_fst {α : Type} (k : Nat) (f : α → α) :
    ∀ l : List (Nat × α), (modifyA k f l).map Prod.fst = l.map Prod.fst := by
  intro l
  induction l with
  | nil => rfl
  | cons p l ih =>
    by_cases h : k = p.1 <;> simp [modifyA, h, ih]

theorem lookA_modifyA_self {α : Type} (k : Nat) (f : α → α) (l : List (Nat × α)) :
    lookA k (modifyA k f l) = (lookA k l).map f := by
  induction l with
  | nil => rfl
  | cons p l ih =>
    by_cases h : k = p.1 <;> simp [modifyA, lookA, h, ih]

theorem lookA_modifyA_ne {α : Type} {k s : Nat} (f : α → α) (l : List (Nat × α))
    (h : s ≠ k) : lookA s (modifyA k f l) = lookA s l := by
  induction l with
  | nil => rfl
  | cons p l ih =>
    by_cases hk : k = p.1
    · have : s ≠ p.1 := hk ▸ h
      simp [modifyA, lookA, hk, this]
    · by_cases hs : s = p.1 <;> simp [modifyA, lookA, hk, hs, ih]

theorem mem_modifyA {α : Type} {k : Nat} {f : α → α} {q : Nat × α} {l : List (Nat × α)}
    (h : q ∈ modifyA k f l) : q ∈ l ∨ (q.1 = k ∧ ∃ v, (k, v) ∈ l ∧ q.2 = f v) := by
  induction l with
  | nil => simp [modifyA] at h
  | cons p l ih =>
    by_cases hk : k = p.1
    · rw [modifyA, if_pos hk] at h
      rcases List.mem_cons.mp h with rfl | h
      · exact Or.inr ⟨hk.symm, p.2, by simp [hk], rfl⟩
      · exact Or.inl (List.mem_cons_of_mem _ h)
    · rw [modifyA, if_neg hk] at h
      rcases List.mem_cons.mp h with rfl | h
      · exact Or.inl (List.mem_cons_self _ _)
      · rcases ih h with h | ⟨h1, v, hv, h2⟩
        · exact Or.inl (List.mem_cons_of_mem _ h)
        · exact Or.inr ⟨h1, v, List.mem_cons_of_mem _ hv, h2⟩

theorem eraseA_sublist {α : Type} (k : Nat) : ∀ l : List (Nat × α), List.Sublist (eraseA k l) l := by
  intro l
  induction l with
  | nil => simp [eraseA]
  | cons p l ih =>
    by_cases h : k = p.1
    · rw [eraseA, if_pos h]
      exact (List.Sublist.refl l).cons p
    · rw [eraseA, if_neg h]
      exact ih.cons₂ p

theorem mem_of_mem_eraseA {α : Type} {k : Nat} {q : Nat × α} {l : List (Nat × α)}
    (h : q ∈ eraseA k l) : q ∈ l :=
  (eraseA_sublist k l).subset h

theorem ne_of_mem_eraseA {α : Type} {k : Nat} {q : Nat × α} {l : List (Nat × α)}
    (hnd : (l.map Prod.fst).Nodup) (h : q ∈ eraseA k l) : q.1 ≠ k := by
  induction l with
  | nil => simp [eraseA] at h
  | cons p l ih =>
    by_cases hk : k = p.1
    · rw [eraseA, if_pos hk] at h
      have hq : p.1 ∉ l.map Prod.fst := (List.nodup_cons.mp hnd).1
      intro hqk
      exact hq ((hqk.trans hk) ▸ List.mem_map_of_mem Prod.fst h)
    · rw [eraseA, if_neg hk] at h
      rcases List.mem_cons.mp h with rfl | h
      · exact fun hh => hk hh.symm
      · exact ih (List.nodup_cons.mp hnd).2 h

theorem lookA_eraseA_ne {α : Type} {k s : Nat} (l : List (Nat × α)) (h : s ≠ k) :
    lookA s (eraseA k l) = lookA s l := by
  induction l with
  | nil => rfl
  | cons p l ih =>
    by_cases hk : k = p.1
    · have : s ≠ p.1 := hk ▸ h
      simp [eraseA, lookA, hk, this]
    · by_cases hs : s = p.1 <;> simp [eraseA, lookA, hk, hs, ih]

theorem map_fst_eraseA_sublist {α : Type} (k : Nat) (l : List (Nat × α)) :
    List.Sublist ((eraseA k l).map Prod.fst) (l.map Prod.fst) :=
  (eraseA_sublist k l).map Prod.fst

theorem mem_insertSorted {a s : Nat} : ∀ {l : List Nat}, a ∈ insertSorted s l ↔ a = s ∨ a ∈ l := by
  intro l
  induction l with
  | nil => simp [insertSorted]
  | cons x xs ih =>
    by_cases h1 : s < x
    · rw [insertSorted, if_pos h1]
      simp only [List.mem_cons]
    · by_cases h2 : s = x
      · subst h2
        rw [insertSorted, if_neg h1, if_pos rfl]
        simp only [List.mem_cons]
        tauto
      · rw [insertSorted, if_neg h1, if_neg h2]
        simp only [List.mem_cons, ih]
        tauto

theorem insertSorted_pairwise {s : Nat} {l : List Nat} (h : l.Pairwise (· < ·)) :
    (insertSorted s l).Pairwise (· < ·) := by
  induction l with
  | nil => simp [insertSorted]
  | cons x xs ih =>
    obtain ⟨hx, hxs⟩ := List.pairwise_cons.mp h
    by_cases h1 : s < x
    · rw [insertSorted, if_pos h1]
      refine List.pairwise_cons.mpr ⟨?_, h⟩
      intro b hb
      rcases List.mem_cons.mp hb with rfl | hb
      · exact h1
      · exact h1.trans (hx b hb)
    · by_cases h2 : s = x
      · rw [insertSorted, if_neg h1, if_pos h2]
        exact h
      · rw [insertSorted, if_neg h1, if_neg h2]
        refine List.pairwise_cons.mpr ⟨?_, ih hxs⟩
        intro b hb
        rcases mem_insertSorted.mp hb with rfl | hb
        · exact Nat.lt_of_le_of_ne (Nat.not_lt.mp h1) (fun hh => h2 hh.symm)
        · exact hx b hb

/-! ### Frame and small-step lemmas about the operations -/

namespace CitationGraph

theorem getNode_eq_of_lookA {g : CitationGraph} {s : Nat} {n : Node}
    (h : lookA s g.nodes = some n) : g.getNode s = n := by
  simp [getNode, h]

theorem modifyNode_publications (g : CitationGraph) (k : Nat) (f : Node → Node) :
    (g.modifyNode k f).publications = g.publications := rfl

theorem modifyNode_map_fst (g : CitationGraph) (k : Nat) (f : Node → Node) :
    (g.modifyNode k f).nodes.map Prod.fst = g.nodes.map Prod.fst :=
  modifyA_map_fst k f g.nodes

theorem getNode_modifyNode_self {g : CitationGraph} {k : Nat} (f : Node → Node)
    (h : (lookA k g.nodes).isSome = true) :
    (g.modifyNode k f).getNode k = f (g.getNode k) := by
  obtain ⟨n, hn⟩ := Option.isSome_iff_exists.mp h
  simp [modifyNode, getNode, lookA_modifyA_self, hn]

theorem getNode_modifyNode_ne {g : CitationGraph} {k s : Nat} (f : Node → Node)
    (h : s ≠ k) : (g.modifyNode k f).getNode s = g.getNode s := by
  simp [modifyNode, getNode, lookA_modifyA_ne f g.nodes h]

theorem add_citation_frame (g : CitationGraph) (c p : Nat) :
    (add_citation g c p).snd.publications = g.publications ∧
    (add_citation g c p).snd.root = g.root ∧
    (add_citation g c p).snd.nextSerial = g.nextSerial ∧
    (add_citation g c p).snd.nodes.map Prod.fst = g.nodes.map Prod.fst := by
  cases hc : g.findSerial c <;> cases hp : g.findSerial p <;>
    simp [add_citation, hc, hp, modifyNode, modifyA_map_fst]

theorem getNode_pubId_modifyNode {g : CitationGraph} {k : Nat} (f : Node → Node)
    (hf : ∀ n, (f n).pubId = n.pubId) (s : Nat) :
    ((g.modifyNode k f).getNode s).pubId = (g.getNode s).pubId := by
  by_cases h : s = k
  · subst h
    cases hn : lookA s g.nodes with
    | none => simp [modifyNode, getNode, lookA_modifyA_self, hn]
    | some n => simp [modifyNode, getNode, lookA_modifyA_self, hn, hf]
  · rw [getNode_modifyNode_ne f h]

theorem add_citation_pubIdOf (g : CitationGraph) (c p s : Nat) :
    (add_citation g c p).snd.pubIdOf s = g.pubIdOf s := by
  cases hc : g.findSerial c with
  | none => simp [add_citation, hc]
  | some cs =>
    cases hp : g.findSerial p with
    | none => simp [add_citation, hc, hp]
    | some ps =>
      simp only [add_citation, hc, hp, pubIdOf]
      rw [getNode_pubId_modifyNode (fun n => { n with children := insertSorted cs n.children })
            (fun n => rfl) s,
          getNode_pubId_modifyNode (fun n => { n with parents := n.parents ++ [ps] })
            (fun n => rfl) s]

end CitationGraph

/-! ### Preservation of the well-formedness invariant -/

theorem lookA_modifyA_isSome {α : Type} (k s : Nat) (f : α → α) (l : List (Nat × α)) :
    (lookA s (modifyA k f l)).isSome = (lookA s l).isSome := by
  by_cases h : s = k
  · subst h
    rw [lookA_modifyA_self]
    cases lookA s l <;> rfl
  · rw [lookA_modifyA_ne f l h]

namespace CitationGraph

theorem wf_init (stemId : Nat) : WF (CitationGraph.init stemId) := by
  constructor <;> simp [init, lookA]

theorem wf_modifyNode {g : CitationGraph} (h : WF g) (k : Nat) (f : Node → Node)
    (hid : ∀ n, (f n).pubId = n.pubId)
    (hlive : ∀ v, (k, v) ∈ g.nodes → ∀ c ∈ (f v).children, (lookA c g.nodes).isSome = true)
    (hsort : ∀ v, (k, v) ∈ g.nodes → (f v).children.Pairwise (· < ·)) :
    WF (g.modifyNode k f) := by
  constructor
  · exact h.pubsKeys
  · exact h.pubsVals
  · rw [modifyNode_map_fst]
    exact h.nodesKeys
  · intro q hq
    rcases mem_modifyA hq with hq | ⟨hk, v, hv, hfv⟩
    · exact h.bound q hq
    · exact hk ▸ h.bound (k, v) hv
  · intro p' hp'
    obtain ⟨n, hn, hpid⟩ := h.pubsNodes p' hp'
    by_cases hpk : p'.2 = k
    · refine ⟨f n, ?_, by rw [hid]; exact hpid⟩
      show lookA p'.2 (modifyA k f g.nodes) = some (f n)
      rw [hpk, lookA_modifyA_self, ← hpk, hn]
      rfl
    · refine ⟨n, ?_, hpid⟩
      show lookA p'.2 (modifyA k f g.nodes) = some n
      rw [lookA_modifyA_ne f g.nodes hpk]
      exact hn
  · intro q hq
    rcases mem_modifyA hq with hq | ⟨hk, v, hv, hfv⟩
    · exact h.nodesPubs q hq
    · show lookA q.2.pubId g.publications = some q.1
      rw [hfv, hid, hk]
      exact h.nodesPubs (k, v) hv
  · intro q hq c hc
    have base : (lookA c g.nodes).isSome = true := by
      rcases mem_modifyA hq with hq | ⟨hk, v, hv, hfv⟩
      · exact h.childrenLive q hq c hc
      · exact hlive v hv c (hfv ▸ hc)
    show (lookA c (modifyA k f g.nodes)).isSome = true
    rw [lookA_modifyA_isSome]
    exact base
  · intro q hq
    rcases mem_modifyA hq with hq | ⟨hk, v, hv, hfv⟩
    · exact h.childrenSorted q hq
    · exact hfv ▸ hsort v hv

theorem wf_add_citation {g : CitationGraph} (h : WF g) (c p : Nat) :
    WF (add_citation g c p).snd := by
  cases hc : g.findSerial c with
  | none =>
    cases hp : g.findSerial p <;> simp only [add_citation, hc] <;> exact h
  | some cs =>
    cases hp : g.findSerial p with
    | none =>
      simp only [add_citation, hc, hp]
      exact h
    | some ps =>
      have hcsl : (lookA cs g.nodes).isSome = true := by
        obtain ⟨n, hn, _⟩ := h.pubsNodes _ (lookA_mem hc)
        simp [hn]
      simp only [add_citation, hc, hp]
      have hwf1 : WF (g.modifyNode cs (fun n => { n with parents := n.parents ++ [ps] })) := by
        refine wf_modifyNode h cs _ (fun n => rfl) ?_ ?_
        · intro v hv cc hcc
          exact h.childrenLive (cs, v) hv cc hcc
        · intro v hv
          exact h.childrenSorted (cs, v) hv
      refine wf_modifyNode hwf1 ps _ (fun n => rfl) ?_ ?_
      · intro v hv cc hcc
        rcases mem_insertSorted.mp hcc with heq | hcc
        · have hred : (lookA cc
              ((g.modifyNode cs (fun n => { n with parents := n.parents ++ [ps] })).nodes)).isSome =
              (lookA cc g.nodes).isSome :=
            lookA_modifyA_isSome cs cc _ g.nodes
          rw [hred, heq]
          exact hcsl
        · exact hwf1.childrenLive (ps, v) hv cc hcc
      · intro v hv
        exact insertSorted_pairwise (hwf1.childrenSorted (ps, v) hv)

theorem remove_no_mutation {g : CitationGraph} (h : WF g) (id : Nat) :
    (remove g id).snd = g := by
  cases hid : g.findSerial id with
  | none => simp [remove, hid]
  | some s =>
    obtain ⟨n, hn, hpid⟩ := h.pubsNodes _ (lookA_mem hid)
    have hown : g.pubIdOf s = id := by
      simp [pubIdOf, getNode, hn, hpid]
    simp [remove, hid, hown]

theorem wf_foldl_add (id : Nat) :
    ∀ (ps : List Nat) (gg : CitationGraph), WF gg →
      WF (ps.foldl (fun acc q => (add_citation acc id q).snd) gg) := by
  intro ps
  induction ps with
  | nil => intro gg hgg; exact hgg
  | cons q ps ih =>
    intro gg hgg
    exact ih _ (wf_add_citation hgg id q)

theorem foldl_add_frame (id : Nat) :
    ∀ (ps : List Nat) (gg : CitationGraph),
      (ps.foldl (fun acc q => (add_citation acc id q).snd) gg).publications =
          gg.publications ∧
      (ps.foldl (fun acc q => (add_citation acc id q).snd) gg).root = gg.root ∧
      (ps.foldl (fun acc q => (add_citation acc id q).snd) gg).nextSerial = gg.nextSerial ∧
      (ps.foldl (fun acc q => (add_citation acc id q).snd) gg).nodes.map Prod.fst =
          gg.nodes.map Prod.fst := by
  intro ps
  induction ps with
  | nil => intro gg; exact ⟨rfl, rfl, rfl, rfl⟩
  | cons q ps ih =>
    intro gg
    obtain ⟨h1, h2, h3, h4⟩ := ih (add_citation gg id q).snd
    obtain ⟨f1, f2, f3, f4⟩ := add_citation_frame gg id q
    exact ⟨h1.trans f1, h2.trans f2, h3.trans f3, h4.trans f4⟩

theorem noref_of_not_hasStrongRef {g : CitationGraph} {s : Nat}
    (h : hasStrongRef g s = false) : ∀ q ∈ g.nodes, s ∉ q.2.children := by
  intro q hq hc
  rw [hasStrongRef, Bool.or_eq_false_iff] at h
  have h2 := List.any_eq_false.mp h.2 q hq
  simp at h2
  exact h2 hc

theorem wf_eraseNode {g : CitationGraph} (h : WF g) {id s : Nat}
    (hmem : lookA id g.publications = some s)
    (hnoref : ∀ q ∈ g.nodes, s ∉ q.2.children) :
    WF (g.eraseNode id s) := by
  have hpmem : (id, s) ∈ g.publications := lookA_mem hmem
  constructor
  · exact h.pubsKeys.sublist (map_fst_eraseA_sublist id g.publications)
  · exact h.pubsVals.sublist ((eraseA_sublist id g.publications).map Prod.snd)
  · exact h.nodesKeys.sublist (map_fst_eraseA_sublist s g.nodes)
  · intro q hq
    exact h.bound q (mem_of_mem_eraseA hq)
  · intro p hp
    have hpin : p ∈ g.publications := mem_of_mem_eraseA hp
    have hpne : p.1 ≠ id := ne_of_mem_eraseA h.pubsKeys hp
    have hsne : p.2 ≠ s := by
      intro hps
      have := List.inj_on_of_nodup_map h.pubsVals hpin hpmem hps
      exact hpne (congrArg Prod.fst this)
    obtain ⟨n, hn, hpid⟩ := h.pubsNodes p hpin
    refine ⟨n, ?_, hpid⟩
    show lookA p.2 (eraseA s g.nodes) = some n
    rw [lookA_eraseA_ne g.nodes hsne]
    exact hn
  · intro q hq
    have hqin : q ∈ g.nodes := mem_of_mem_eraseA hq
    have hqs : q.1 ≠ s := ne_of_mem_eraseA h.nodesKeys hq
    have hqid : q.2.pubId ≠ id := by
      intro hqi
      have := h.nodesPubs q hqin
      rw [hqi, hmem] at this
      exact hqs (Option.some.inj this).symm
    show lookA q.2.pubId (eraseA id g.publications) = some q.1
    rw [lookA_eraseA_ne g.publications hqid]
    exact h.nodesPubs q hqin
  · intro q hq c hc
    have hqin : q ∈ g.nodes := mem_of_mem_eraseA hq
    have hcs : c ≠ s := by
      intro hcc
      exact hnoref q hqin (hcc ▸ hc)
    show (lookA c (eraseA s g.nodes)).isSome = true
    rw [lookA_eraseA_ne g.nodes hcs]
    exact h.childrenLive q hqin c hc
  · intro q hq
    exact h.childrenSorted q (mem_of_mem_eraseA hq)

theorem create_eq_main {g : CitationGraph} {id : Nat} {parent_ids : List Nat}
    (hid : ¬((g.findSerial id).isSome = true))
    (hval : ¬(parent_ids.any (fun p => (g.findSerial p).isNone) = true)) :
    create g id parent_ids =
      (if hasStrongRef
            (parent_ids.foldl (fun acc q => (add_citation acc id q).snd)
              { g with publications := (id, g.nextSerial) :: g.publications
                       nodes := (g.nextSerial, ⟨id, [], []⟩) :: g.nodes
                       nextSerial := g.nextSerial + 1 })
            g.nextSerial
       then ((.ok (), parent_ids.foldl (fun acc q => (add_citation acc id q).snd)
              { g with publications := (id, g.nextSerial) :: g.publications
                       nodes := (g.nextSerial, ⟨id, [], []⟩) :: g.nodes
                       nextSerial := g.nextSerial + 1 }) :
                Except CGErr Unit × CitationGraph)
       else (.ok (), (parent_ids.foldl (fun acc q => (add_citation acc id q).snd)
              { g with publications := (id, g.nextSerial) :: g.publications
                       nodes := (g.nextSerial, ⟨id, [], []⟩) :: g.nodes
                       nextSerial := g.nextSerial + 1 }).eraseNode id g.nextSerial)) := by
  rw [create, if_neg hid, if_neg hval]

theorem wf_create {g : CitationGraph} (h : WF g) (id : Nat) (parent_ids : List Nat) :
    WF (create g id parent_ids).snd := by
  by_cases hid : (g.findSerial id).isSome = true
  · rw [create, if_pos hid]
    exact h
  · by_cases hval : parent_ids.any (fun p => (g.findSerial p).isNone) = true
    · rw [create, if_neg hid, if_pos hval]
      exact h
    · have hidn : lookA id g.publications = none :=
        Option.not_isSome_iff_eq_none.mp hid
      have hidk : id ∉ g.publications.map Prod.fst := lookA_eq_none_iff.mp hidn
      have pubsValsLt : ∀ p ∈ g.publications, p.2 < g.nextSerial := by
        intro p hp
        obtain ⟨n, hn, _⟩ := h.pubsNodes p hp
        exact h.bound _ (lookA_mem hn)
      have hsk : g.nextSerial ∉ g.nodes.map Prod.fst := by
        intro hmem
        rw [← lookA_isSome_iff] at hmem
        obtain ⟨n, hn⟩ := Option.isSome_iff_exists.mp hmem
        exact absurd (h.bound _ (lookA_mem hn)) (Nat.lt_irrefl _)
      have hwf1 : WF { g with publications := (id, g.nextSerial) :: g.publications
                              nodes := (g.nextSerial, ⟨id, [], []⟩) :: g.nodes
                              nextSerial := g.nextSerial + 1 } := by
        constructor
        · exact List.nodup_cons.mpr ⟨hidk, h.pubsKeys⟩
        · refine List.nodup_cons.mpr ⟨?_, h.pubsVals⟩
          intro hmem
          obtain ⟨p, hp, hp2⟩ := List.mem_map.mp hmem
          exact absurd (hp2 ▸ pubsValsLt p hp) (Nat.lt_irrefl _)
        · exact List.nodup_cons.mpr ⟨hsk, h.nodesKeys⟩
        · intro q hq
          rcases List.mem_cons.mp hq with rfl | hq
          · exact Nat.lt_succ_self _
          · exact Nat.lt_succ_of_lt (h.bound q hq)
        · intro p hp
          rcases List.mem_cons.mp hp with rfl | hp
          · exact ⟨⟨id, [], []⟩, by simp [lookA], rfl⟩
          · obtain ⟨n, hn, hpid⟩ := h.pubsNodes p hp
            have hne : p.2 ≠ g.nextSerial := Nat.ne_of_lt (pubsValsLt p hp)
            refine ⟨n, ?_, hpid⟩
            show lookA p.2 ((g.nextSerial, (⟨id, [], []⟩ : Node)) :: g.nodes) = some n
            rw [lookA, if_neg hne]
            exact hn
        · intro q hq
          rcases List.mem_cons.mp hq with rfl | hq
          · show lookA id ((id, g.nextSerial) :: g.publications) = some g.nextSerial
            rw [lookA, if_pos rfl]
          · have hne : q.2.pubId ≠ id := by
              intro hqi
              have := h.nodesPubs q hq
              rw [hqi, hidn] at this
              exact Option.noConfusion this
            show lookA q.2.pubId ((id, g.nextSerial) :: g.publications) = some q.1
            rw [lookA, if_neg hne]
            exact h.nodesPubs q hq
        · intro q hq c hc
          rcases List.mem_cons.mp hq with rfl | hq
          · simp at hc
          · have base := h.childrenLive q hq c hc
            show (lookA c ((g.nextSerial, (⟨id, [], []⟩ : Node)) :: g.nodes)).isSome = true
            by_cases hcn : c = g.nextSerial
            · rw [lookA, if_pos hcn]
              rfl
            · rw [lookA, if_neg hcn]
              exact base
        · intro q hq
          rcases List.mem_cons.mp hq with rfl | hq
          · exact List.Pairwise.nil
          · exact h.childrenSorted q hq
      have hwf2 := wf_foldl_add id parent_ids _ hwf1
      rw [create_eq_main hid hval]
      by_cases hsr : hasStrongRef
          (parent_ids.foldl (fun acc q => (add_citation acc id q).snd)
            { g with publications := (id, g.nextSerial) :: g.publications
                     nodes := (g.nextSerial, ⟨id, [], []⟩) :: g.nodes
                     nextSerial := g.nextSerial + 1 })
          g.nextSerial = true
      · rw [if_pos hsr]
        exact hwf2
      · rw [if_neg hsr]
        refine wf_eraseNode hwf2 ?_ ?_
        · rw [(foldl_add_frame id parent_ids _).1]
          show lookA id ((id, g.nextSerial) :: g.publications) = some g.nextSerial
          rw [lookA, if_pos rfl]
        · exact noref_of_not_hasStrongRef (Bool.not_eq_true _ ▸ hsr)

theorem wf_reach {g : CitationGraph} (h : Reach g) : WF g := by
  induction h with
  | start stemId => exact wf_init stemId
  | stepCreate g id ps _ ih => exact wf_create ih id ps
  | stepCite g c p _ ih => exact wf_add_citation ih c p
  | stepRemove g id _ ih =>
    rw [remove_no_mutation ih id]
    exact ih

end CitationGraph

/-! ### Serial monotonicity of the states reached without add_citation -/

namespace CitationGraph

theorem reachNC_reach {g : CitationGraph} (h : ReachNC g) : Reach g := by
  induction h with
  | start stemId => exact Reach.start stemId
  | stepCreate g id ps _ ih => exact Reach.stepCreate g id ps ih
  | stepRemove g id _ ih => exact Reach.stepRemove g id ih

theorem serialMono_add_citation {acc : CitationGraph} {id s q : Nat}
    (hm : SerialMono acc)
    (hl : lookA id acc.publications = some s)
    (hp : ∀ pr ∈ acc.publications, pr.1 ≠ id → pr.2 < s)
    (hq : q ≠ id) :
    SerialMono (add_citation acc id q).snd := by
  have his : acc.findSerial id = some s := hl
  cases hqs : acc.findSerial q with
  | none =>
    simp only [add_citation, his, hqs]
    exact hm
  | some qs =>
    have hqslt : qs < s := hp (q, qs) (lookA_mem hqs) hq
    simp only [add_citation, his, hqs]
    intro r hr c hc
    rcases mem_modifyA hr with hr | ⟨hrk, v, hv, hrv⟩
    · rcases mem_modifyA hr with hr | ⟨hrk, v, hv, hrv⟩
      · exact hm r hr c hc
      · rw [hrv] at hc
        exact hrk ▸ hm (s, v) hv c hc
    · rw [hrv] at hc
      rcases mem_insertSorted.mp hc with rfl | hc
      · exact hrk ▸ hqslt
      · rcases mem_modifyA hv with hv | ⟨hvk, w, hw, hvw⟩
        · exact hrk ▸ hm (qs, v) hv c hc
        · exact absurd hvk (Nat.ne_of_lt hqslt)

theorem serialMono_foldl_add {id s : Nat} :
    ∀ (l : List Nat) (acc : CitationGraph),
      SerialMono acc →
      lookA id acc.publications = some s →
      (∀ pr ∈ acc.publications, pr.1 ≠ id → pr.2 < s) →
      (∀ q ∈ l, q ≠ id) →
      SerialMono (l.foldl (fun a q => (add_citation a id q).snd) acc) := by
  intro l
  induction l with
  | nil =>
    intro acc hm _ _ _
    exact hm
  | cons q l ih =>
    intro acc hm hl hp hql
    have hq : q ≠ id := hql q (List.mem_cons_self q l)
    refine ih _ (serialMono_add_citation hm hl hp hq) ?_ ?_
      (fun r hr => hql r (List.mem_cons_of_mem _ hr))
    · rw [(add_citation_frame acc id q).1]
      exact hl
    · intro pr hpr hne
      exact hp pr ((add_citation_frame acc id q).1 ▸ hpr) hne

theorem serialMono_eraseNode {g : CitationGraph} (hm : SerialMono g) (id s : Nat) :
    SerialMono (g.eraseNode id s) :=
  fun q hq c hc => hm q (mem_of_mem_eraseA hq) c hc

theorem serialMono_create {g : CitationGraph} (hw : WF g) (hm : SerialMono g)
    (id : Nat) (parent_ids : List Nat) :
    SerialMono (create g id parent_ids).snd := by
  by_cases hid : (g.findSerial id).isSome = true
  · rw [create, if_pos hid]
    exact hm
  · by_cases hval : parent_ids.any (fun p => (g.findSerial p).isNone) = true
    · rw [create, if_neg hid, if_pos hval]
      exact hm
    · have hidn : lookA id g.publications = none :=
        Option.not_isSome_iff_eq_none.mp hid
      have pubsValsLt : ∀ p ∈ g.publications, p.2 < g.nextSerial := by
        intro p hp
        obtain ⟨n, hn, _⟩ := hw.pubsNodes p hp
        exact hw.bound _ (lookA_mem hn)
      have hpar : ∀ q ∈ parent_ids, q ≠ id := by
        intro q hq hqe
        subst hqe
        have hnone : (g.findSerial q).isNone = true := by
          simp [findSerial, hidn]
        exact hval (List.any_eq_true.mpr ⟨q, hq, hnone⟩)
      have hm1 : SerialMono { g with publications := (id, g.nextSerial) :: g.publications
                                     nodes := (g.nextSerial, ⟨id, [], []⟩) :: g.nodes
                                     nextSerial := g.nextSerial + 1 } := by
        intro q hq c hc
        rcases List.mem_cons.mp hq with rfl | hq
        · simp at hc
        · exact hm q hq c hc
      have hl1 : lookA id ((id, g.nextSerial) :: g.publications) = some g.nextSerial := by
        rw [lookA, if_pos rfl]
      have hp1 : ∀ pr ∈ ((id, g.nextSerial) :: g.publications), pr.1 ≠ id →
          pr.2 < g.nextSerial := by
        intro pr hpr hne
        rcases List.mem_cons.mp hpr with rfl | hpr
        · exact absurd rfl hne
        · exact pubsValsLt pr hpr
      have hm2 := serialMono_foldl_add parent_ids _ hm1 hl1 hp1 hpar
      rw [create_eq_main hid hval]
      by_cases hsr : hasStrongRef
          (parent_ids.foldl (fun acc q => (add_citation acc id q).snd)
            { g with publications := (id, g.nextSerial) :: g.publications
                     nodes := (g.nextSerial, ⟨id, [], []⟩) :: g.nodes
                     nextSerial := g.nextSerial + 1 })
          g.nextSerial = true
      · rw [if_pos hsr]
        exact hm2
      · rw [if_neg hsr]
        exact serialMono_eraseNode hm2 id g.nextSerial

theorem serialMono_reachNC {g : CitationGraph} (h : ReachNC g) : SerialMono g := by
  induction h with
  | start stemId =>
    intro q hq c hc
    rcases List.mem_cons.mp hq with rfl | hq
    · simp at hc
    · simp at hq
  | stepCreate g id ps hr ih => exact serialMono_create (wf_reach (reachNC_reach hr)) ih id ps
  | stepRemove g id hr ih =>
    rw [remove_no_mutation (wf_reach (reachNC_reach hr)) id]
    exact ih

theorem strongEdge_lt {g : CitationGraph} (hm : SerialMono g) {a b : Nat}
    (h : strongEdge g a b) : a < b := by
  have hmem : b ∈ (g.getNode a).children := h
  cases hn : lookA a g.nodes with
  | none =>
    rw [getNode, hn] at hmem
    simp [defaultNode] at hmem
  | some n =>
    rw [getNode, hn] at hmem
    exact hm (a, n) (lookA_mem hn) b hmem

theorem ancestor_lt {g : CitationGraph} (hm : SerialMono g) {a b : Nat}
    (h : Ancestor g a b) : a < b := by
  induction h with
  | single he => exact strongEdge_lt hm he
  | tail _ he ih => exact ih.trans (strongEdge_lt hm he)

end CitationGraph

/-! ### Key consistency and adjacency lemmas -/

namespace CitationGraph

theorem pubIdOf_of_lookA {g : CitationGraph} (h : WF g) {k cs : Nat}
    (hck : lookA k g.publications = some cs) : g.pubIdOf cs = k := by
  obtain ⟨m, hm, hmk⟩ := h.pubsNodes (k, cs) (lookA_mem hck)
  simp [pubIdOf, getNode, hm, hmk]

theorem pubIdOf_inj {g : CitationGraph} (h : WF g) {a b : Nat}
    (ha : (lookA a g.nodes).isSome = true) (hb : (lookA b g.nodes).isSome = true)
    (heq : g.pubIdOf a = g.pubIdOf b) : a = b := by
  obtain ⟨na, hna⟩ := Option.isSome_iff_exists.mp ha
  obtain ⟨nb, hnb⟩ := Option.isSome_iff_exists.mp hb
  have h1 := h.nodesPubs (a, na) (lookA_mem hna)
  have h2 := h.nodesPubs (b, nb) (lookA_mem hnb)
  simp only [pubIdOf, getNode, hna, hnb, Option.getD_some] at heq
  rw [heq] at h1
  exact Option.some.inj (h1.symm.trans h2)

theorem childIds_nodup {g : CitationGraph} (h : WF g) {s : Nat} {n : Node}
    (hn : lookA s g.nodes = some n) : (g.childIds s).Nodup := by
  rw [childIds, getNode_eq_of_lookA hn]
  refine List.Nodup.map_on ?_ ?_
  · intro x hx y hy hxy
    exact pubIdOf_inj h (h.childrenLive (s, n) (lookA_mem hn) x hx)
      (h.childrenLive (s, n) (lookA_mem hn) y hy) hxy
  · exact (h.childrenSorted (s, n) (lookA_mem hn)).imp Nat.ne_of_lt

theorem childIds_mem_iff {g : CitationGraph} (h : WF g) {s : Nat} {n : Node}
    (hn : lookA s g.nodes = some n) (k : Nat) :
    k ∈ g.childIds s ↔ ∃ cs, lookA k g.publications = some cs ∧ cs ∈ n.children := by
  rw [childIds, getNode_eq_of_lookA hn]
  constructor
  · intro hk
    obtain ⟨cs, hcs, hcsk⟩ := List.mem_map.mp hk
    have hlive := h.childrenLive (s, n) (lookA_mem hn) cs hcs
    obtain ⟨m, hm⟩ := Option.isSome_iff_exists.mp hlive
    have hreg := h.nodesPubs (cs, m) (lookA_mem hm)
    have hpc : g.pubIdOf cs = m.pubId := by simp [pubIdOf, getNode, hm]
    refine ⟨cs, ?_, hcs⟩
    rw [← hcsk, hpc]
    exact hreg
  · rintro ⟨cs, hck, hcs⟩
    obtain ⟨m, hm, hmk⟩ := h.pubsNodes (k, cs) (lookA_mem hck)
    refine List.mem_map.mpr ⟨cs, hcs, ?_⟩
    simp [pubIdOf, getNode, hm, hmk]

theorem lookA_isSome_of_findSerial {g : CitationGraph} (h : WF g) {c cs : Nat}
    (hc : g.findSerial c = some cs) : (lookA cs g.nodes).isSome = true := by
  obtain ⟨n, hn, _⟩ := h.pubsNodes _ (lookA_mem hc)
  simp [hn]

theorem lookA_modifyNode_isSome (g : CitationGraph) (k s : Nat) (f : Node → Node) :
    (lookA s (g.modifyNode k f).nodes).isSome = (lookA s g.nodes).isSome :=
  lookA_modifyA_isSome k s f g.nodes

theorem getNode_parents_modifyNode {g : CitationGraph} {k : Nat} (f : Node → Node)
    (hf : ∀ n, (f n).parents = n.parents) (s : Nat) :
    ((g.modifyNode k f).getNode s).parents = (g.getNode s).parents := by
  by_cases h : s = k
  · subst h
    cases hn : lookA s g.nodes with
    | none => simp [modifyNode, getNode, lookA_modifyA_self, hn]
    | some n => simp [modifyNode, getNode, lookA_modifyA_self, hn, hf]
  · rw [getNode_modifyNode_ne f h]

theorem getNode_children_modifyNode {g : CitationGraph} {k : Nat} (f : Node → Node)
    (hf : ∀ n, (f n).children = n.children) (s : Nat) :
    ((g.modifyNode k f).getNode s).children = (g.getNode s).children := by
  by_cases h : s = k
  · subst h
    cases hn : lookA s g.nodes with
    | none => simp [modifyNode, getNode, lookA_modifyA_self, hn]
    | some n => simp [modifyNode, getNode, lookA_modifyA_self, hn, hf]
  · rw [getNode_modifyNode_ne f h]

theorem add_citation_parents {g : CitationGraph} (h : WF g) {c p cs ps : Nat}
    (hc : g.findSerial c = some cs) (hp : g.findSerial p = some ps) :
    ((add_citation g c p).snd.getNode cs).parents = (g.getNode cs).parents ++ [ps] := by
  have hcl := lookA_isSome_of_findSerial h hc
  simp only [add_citation, hc, hp]
  rw [getNode_parents_modifyNode (fun n => { n with children := insertSorted cs n.children })
        (fun n => rfl) cs,
      getNode_modifyNode_self _ hcl]

theorem add_citation_children {g : CitationGraph} (h : WF g) {c p cs ps : Nat}
    (hc : g.findSerial c = some cs) (hp : g.findSerial p = some ps) :
    ((add_citation g c p).snd.getNode ps).children =
      insertSorted cs (g.getNode ps).children := by
  have hpl := lookA_isSome_of_findSerial h hp
  simp only [add_citation, hc, hp]
  have houter : (lookA ps
      ((g.modifyNode cs (fun n => { n with parents := n.parents ++ [ps] })).nodes)).isSome =
      true := by
    rw [lookA_modifyNode_isSome]
    exact hpl
  rw [getNode_modifyNode_self _ houter,
      getNode_children_modifyNode (fun n => { n with parents := n.parents ++ [ps] })
        (fun n => rfl) ps]

end CitationGraph

/-! ### Claim theorems -/

namespace CitationGraph

/-- C1: the spec says that after `remove(id)` succeeds on a non-root id
the node and every strong-unreachable descendant are gone.  In the
source, `remove` compares the found node's own key with `id` — always
true for a well-formed registry — so it throws `TriedToRemoveRoot` for
every registered id and removes nothing: on the chain `0 → 1 → 2` of
the spec's own scenario, `remove(1)` throws and `1`, `2` both still
exist. -/
theorem c1_remove_collects_nothing :
    remove gChain2 1 = (Except.error CGErr.triedToRemoveRoot, gChain2) ∧
    (exists_ gChain2 1).fst = true ∧
    (exists_ gChain2 2).fst = true ∧
    (exists_ (remove gChain2 1).snd 1).fst = true ∧
    (exists_ (remove gChain2 1).snd 2).fst = true ∧
    (exists_ (remove gChain2 1).snd 0).fst = true := by
  decide

/-- C2: the spec says `remove` signals `TriedToRemoveRoot` exactly for
the root.  In the source the guard holds for every registered id: on
root `0` with child `1`, `remove(1)` also throws `TriedToRemoveRoot`
(`1` is not the root, whose id is `0`); the root half of the claim does
hold (`remove(0)` throws it and the root survives). -/
theorem c2_remove_root_guard :
    (get_root_id gChain1).fst = 0 ∧
    (1 : Nat) ≠ 0 ∧
    (exists_ gChain1 1).fst = true ∧
    remove gChain1 1 = (Except.error CGErr.triedToRemoveRoot, gChain1) ∧
    remove gChain1 0 = (Except.error CGErr.triedToRemoveRoot, gChain1) ∧
    (exists_ (remove gChain1 0).snd 0).fst = true := by
  decide

/-- C3: the spec says `create(id, [])` fails with
`PublicationNotFound`.  In the source the parent-validation loop has
nothing to check on an empty list, so the call returns normally (no
exception); the fresh node has no strong reference and is collected
when the call returns, so `exists(id)` is false and the registry and
heap are as before, but no error is signalled. -/
theorem c3_create_empty_parent_list :
    (create (CitationGraph.init 0) 1 []).fst = Except.ok () ∧
    (create (CitationGraph.init 0) 1 []).fst ≠ Except.error CGErr.publicationNotFound ∧
    (exists_ (create (CitationGraph.init 0) 1 []).snd 1).fst = false ∧
    (create (CitationGraph.init 0) 1 []).snd.publications = (CitationGraph.init 0).publications ∧
    (create (CitationGraph.init 0) 1 []).snd.nodes = (CitationGraph.init 0).nodes ∧
    (create (CitationGraph.init 0) 1 []).snd.root = (CitationGraph.init 0).root := by
  decide

/-- C4: `create(id, parent_ids)` checks every listed parent against the
registry before allocating or linking anything, so with a fresh `id`
and any unregistered parent in the list the call returns
`PublicationNotFound` and the state is exactly the input state — in
particular `exists(id)` stays false and every node (hence every valid
parent's children list) is untouched. -/
theorem c4_create_validates_parents_first (g : CitationGraph) (id : Nat) (ps : List Nat)
    (hid : (exists_ g id).fst = false)
    (hp : ∃ p ∈ ps, (exists_ g p).fst = false) :
    create g id ps = (Except.error CGErr.publicationNotFound, g) ∧
    (exists_ (create g id ps).snd id).fst = false ∧
    ∀ q : Nat, (create g id ps).snd.getNode q = g.getNode q := by
  obtain ⟨p, hpm, hpf⟩ := hp
  have h1 : ¬((g.findSerial id).isSome = true) := by
    intro hh
    simp only [exists_] at hid
    rw [hh] at hid
    exact Bool.noConfusion hid
  have hpn : (g.findSerial p).isNone = true := by
    simp only [exists_] at hpf
    cases hfp : g.findSerial p with
    | none => rfl
    | some v =>
      rw [hfp] at hpf
      exact Bool.noConfusion hpf
  have h2 : ps.any (fun q => (g.findSerial q).isNone) = true :=
    List.any_eq_true.mpr ⟨p, hpm, hpn⟩
  have heq : create g id ps = (Except.error CGErr.publicationNotFound, g) := by
    rw [create, if_neg h1, if_pos h2]
  refine ⟨heq, ?_, ?_⟩
  · rw [heq]
    exact hid
  · intro q
    rw [heq]

/-- Witness for C4 at a concrete input: on the graph with root `0` and
publication `1`, `create(7, [0, 5])` names the unregistered parent `5`
and fails without mutating anything. -/
theorem c4_create_validates_parents_first_witness :
    create gChain1 7 [0, 5] = (Except.error CGErr.publicationNotFound, gChain1) ∧
    (exists_ (create gChain1 7 [0, 5]).snd 7).fst = false := by
  have h := c4_create_validates_parents_first gChain1 7 [0, 5] (by decide)
    ⟨5, by decide, by decide⟩
  exact ⟨h.1, h.2.1⟩

/-- C6: every id-taking operation (`operator[]`, `get_children`,
`get_parents`, `add_citation` in either argument position, `remove`)
called on an unregistered id returns `PublicationNotFound` and the
post-state is exactly the pre-state. -/
theorem c6_unregistered_id_not_found (g : CitationGraph) (id : Nat)
    (h : (exists_ g id).fst = false) :
    opIndex g id = (Except.error CGErr.publicationNotFound, g) ∧
    get_children g id = (Except.error CGErr.publicationNotFound, g) ∧
    get_parents g id = (Except.error CGErr.publicationNotFound, g) ∧
    (∀ other : Nat,
      add_citation g id other = (Except.error CGErr.publicationNotFound, g) ∧
      add_citation g other id = (Except.error CGErr.publicationNotFound, g)) ∧
    remove g id = (Except.error CGErr.publicationNotFound, g) := by
  have hn : g.findSerial id = none := by
    cases hg : g.findSerial id with
    | none => rfl
    | some s => simp [exists_, hg] at h
  refine ⟨?_, ?_, ?_, ?_, ?_⟩
  · simp [opIndex, hn]
  · simp [get_children, hn]
  · simp [get_parents, hn]
  · intro other
    constructor
    · cases ho : g.findSerial other <;> simp [add_citation, hn, ho]
    · cases ho : g.findSerial other <;> simp [add_citation, hn, ho]
  · simp [remove, hn]

/-- Witness for C6: id `5` is unregistered in the fresh graph with root
`0`; `operator[]`, `add_citation` (both positions, with the registered
other id `0`) and `remove` all report `PublicationNotFound` there and
leave the state alone. -/
theorem c6_unregistered_id_not_found_witness :
    opIndex (CitationGraph.init 0) 5 =
      (Except.error CGErr.publicationNotFound, CitationGraph.init 0) ∧
    add_citation (CitationGraph.init 0) 5 0 =
      (Except.error CGErr.publicationNotFound, CitationGraph.init 0) ∧
    add_citation (CitationGraph.init 0) 0 5 =
      (Except.error CGErr.publicationNotFound, CitationGraph.init 0) ∧
    remove (CitationGraph.init 0) 5 =
      (Except.error CGErr.publicationNotFound, CitationGraph.init 0) := by
  have h := c6_unregistered_id_not_found (CitationGraph.init 0) 5 (by decide)
  exact ⟨h.1, (h.2.2.2.1 0).1, (h.2.2.2.1 0).2, h.2.2.2.2⟩

/-- C10: the query operations `exists`, `get_root_id`, `get_children`,
`get_parents` and `operator[]` never change the state, whether they
return a value or report `PublicationNotFound`. -/
theorem c10_queries_do_not_mutate (g : CitationGraph) (id : Nat) :
    (exists_ g id).snd = g ∧
    (get_root_id g).snd = g ∧
    (get_children g id).snd = g ∧
    (get_parents g id).snd = g ∧
    (opIndex g id).snd = g := by
  refine ⟨rfl, rfl, ?_, ?_, ?_⟩ <;>
    cases hg : g.findSerial id <;>
      simp [get_children, get_parents, opIndex, hg]

end CitationGraph

namespace CitationGraph

/-- C9: on every reachable state, looking a registered id up through
`operator[]` yields the publication whose `get_id()` equals that id,
and every registry entry designates a live node carrying the
publication constructed from the entry's key. -/
theorem c9_key_consistency (g : CitationGraph) (hg : Reach g) (id : Nat)
    (h : (exists_ g id).fst = true) :
    (opIndex g id).fst = Except.ok id ∧
    ∀ pr ∈ g.publications, ∃ n, lookA pr.2 g.nodes = some n ∧ n.pubId = pr.1 := by
  have hw := wf_reach hg
  refine ⟨?_, hw.pubsNodes⟩
  simp only [exists_] at h
  obtain ⟨s, hs⟩ := Option.isSome_iff_exists.mp h
  simp [opIndex, hs, pubIdOf_of_lookA hw hs]

/-- Witness for C9: in the graph with root `0` and publication `1`,
`operator[](1)` returns the publication with id `1`. -/
theorem c9_key_consistency_witness : (opIndex gChain1 1).fst = Except.ok 1 :=
  (c9_key_consistency gChain1
    (Reach.stepCreate (CitationGraph.init 0) 1 [0] (Reach.start 0)) 1 (by decide)).1

/-- C7 counterexample: `add_citation(0, 0)` on a fresh graph is
accepted (both ids are registered — they are the same root) and
installs a strong self-edge, so the reachable state `gSelf` has a node
that is its own strong-edge ancestor; the claimed acyclicity invariant
fails for operation sequences that use `add_citation`. -/
theorem c7_self_citation_cycle : Reach gSelf ∧ Ancestor gSelf 0 0 := by
  refine ⟨Reach.stepCite (CitationGraph.init 0) 0 0 (Reach.start 0), ?_⟩
  exact Relation.TransGen.single (show (0 : Nat) ∈ (gSelf.getNode 0).children by decide)

/-- C7 (amended): every state reachable using only the constructor,
`create` and `remove` — that is, without `add_citation` — has an
acyclic strong subgraph: `create` only installs edges from existing
nodes to the strictly younger new node, so serial numbers increase
along every strong path. -/
theorem c7_acyclic_without_add_citation (g : CitationGraph) (hg : ReachNC g) (s : Nat) :
    ¬ Ancestor g s s :=
  fun h => absurd (ancestor_lt (serialMono_reachNC hg) h) (Nat.lt_irrefl s)

/-- Witness for C7 (amended): the freshly constructed graph with root
id `3` has no self-ancestor at serial `0`. -/
theorem c7_acyclic_without_add_citation_witness :
    ¬ Ancestor (CitationGraph.init 3) 0 0 :=
  c7_acyclic_without_add_citation (CitationGraph.init 3) (ReachNC.start 3) 0

/-- C8 counterexample: creating id `2` and then id `1` under the root
makes `get_children(0)` return `[2, 1]` — the children set is ordered
by the owner order of the shared pointers (modelled by allocation
order), not by key, so the result is not sorted by key. -/
theorem c8_children_not_key_sorted :
    Reach gTwo ∧
    (get_children gTwo 0).fst = Except.ok [2, 1] ∧
    ¬ List.Pairwise (· ≤ ·) ([2, 1] : List Nat) := by
  refine ⟨Reach.stepCreate _ 1 [0] (Reach.stepCreate _ 2 [0] (Reach.start 0)),
    by decide, by decide⟩

/-- C8 (amended): on every reachable state, `get_children(id)` for a
registered id returns the identity keys of exactly the live children
of that node — each exactly once, every listed key registered and
designating a child — but in the children-set owner order (allocation
order of the nodes), which need not be key order. -/
theorem c8_children_ids_complete (g : CitationGraph) (hg : Reach g) (id s : Nat)
    (hs : g.findSerial id = some s) :
    (get_children g id).fst = Except.ok (g.childIds s) ∧
    (g.childIds s).Nodup ∧
    ∀ k : Nat, k ∈ g.childIds s ↔
      ∃ cs, lookA k g.publications = some cs ∧ cs ∈ (g.getNode s).children := by
  have hw := wf_reach hg
  obtain ⟨n, hn, _⟩ := hw.pubsNodes _ (lookA_mem hs)
  refine ⟨by simp [get_children, hs], childIds_nodup hw hn, ?_⟩
  intro k
  rw [getNode_eq_of_lookA hn]
  exact childIds_mem_iff hw hn k

/-- Witness for C8 (amended) on `gTwo` at the root: the returned list
is duplicate-free and contains `2` exactly for the registered child
serial of `2`. -/
theorem c8_children_ids_complete_witness :
    (get_children gTwo 0).fst = Except.ok (gTwo.childIds 0) ∧
    (gTwo.childIds 0).Nodup ∧
    (2 ∈ gTwo.childIds 0 ↔
      ∃ cs, lookA 2 gTwo.publications = some cs ∧ cs ∈ (gTwo.getNode 0).children) := by
  have h := c8_children_ids_complete gTwo
    (Reach.stepCreate _ 1 [0] (Reach.stepCreate _ 2 [0] (Reach.start 0))) 0 0 (by decide)
  exact ⟨h.1, h.2.1, h.2.2 2⟩

/-- C5 counterexample: with the edge `0 → 1` already present
(installed by `create`), a further `add_citation(1, 0)` on the
reachable state `gDup1` is not a no-op: it appends another copy of `0`
to the child's parents vector, so the state changes and
`get_parents(1)` reports `[0, 0, 0]` after two redundant calls. -/
theorem c5_second_add_citation_not_noop :
    Reach gDup1 ∧
    gDup2 ≠ gDup1 ∧
    (get_parents gDup2 1).fst = Except.ok [0, 0, 0] := by
  refine ⟨Reach.stepCite _ 1 0 (Reach.stepCreate _ 1 [0] (Reach.start 0)),
    by decide, by decide⟩

/-- C5 (amended): calling `add_citation(c, p)` twice on a reachable
state with both ids registered leaves `get_children(p)` containing `c`
exactly once (the strong children set deduplicates), but each call
appends another copy of the parent to the child's parents vector, so
the second call is not a no-op. -/
theorem c5_add_citation_twice (g : CitationGraph) (c p cs ps : Nat)
    (hg : Reach g) (hc : g.findSerial c = some cs) (hp : g.findSerial p = some ps) :
    (get_children (add_citation (add_citation g c p).snd c p).snd p).fst =
      Except.ok ((add_citation (add_citation g c p).snd c p).snd.childIds ps) ∧
    ((add_citation (add_citation g c p).snd c p).snd.childIds ps).count c = 1 ∧
    ((add_citation (add_citation g c p).snd c p).snd.getNode cs).parents =
      (g.getNode cs).parents ++ [ps, ps] ∧
    (add_citation (add_citation g c p).snd c p).snd ≠ (add_citation g c p).snd := by
  have h0 := wf_reach hg
  have h1 := wf_add_citation h0 c p
  have h2 := wf_add_citation h1 c p
  have hc1 : (add_citation g c p).snd.findSerial c = some cs := by
    rw [findSerial, (add_citation_frame g c p).1]
    exact hc
  have hp1 : (add_citation g c p).snd.findSerial p = some ps := by
    rw [findSerial, (add_citation_frame g c p).1]
    exact hp
  have hc2 : (add_citation (add_citation g c p).snd c p).snd.findSerial c = some cs := by
    rw [findSerial, (add_citation_frame _ c p).1]
    exact hc1
  have hp2 : (add_citation (add_citation g c p).snd c p).snd.findSerial p = some ps := by
    rw [findSerial, (add_citation_frame _ c p).1]
    exact hp1
  have hpar1 := add_citation_parents h0 hc hp
  have hpar2 := add_citation_parents h1 hc1 hp1
  have hch2 := add_citation_children h1 hc1 hp1
  refine ⟨by simp [get_children, hp2], ?_, ?_, ?_⟩
  · obtain ⟨n2, hn2, _⟩ := h2.pubsNodes _ (lookA_mem hp2)
    have hnd := childIds_nodup h2 hn2
    have hcs2 : cs ∈ ((add_citation (add_citation g c p).snd c p).snd.getNode ps).children := by
      rw [hch2]
      exact mem_insertSorted.mpr (Or.inl rfl)
    have hpub2 := pubIdOf_of_lookA h2 hc2
    have hcmem : c ∈ (add_citation (add_citation g c p).snd c p).snd.childIds ps := by
      rw [childIds]
      exact List.mem_map.mpr ⟨cs, hcs2, hpub2⟩
    exact List.count_eq_one_of_mem hnd hcmem
  · rw [hpar2, hpar1, List.append_assoc]
    rfl
  · intro hcontra
    have heq : ((add_citation (add_citation g c p).snd c p).snd.getNode cs).parents =
        ((add_citation g c p).snd.getNode cs).parents := by rw [hcontra]
    rw [hpar2, hpar1] at heq
    have hlen := congrArg List.length heq
    simp at hlen

/-- Witness for C5 (amended) at `gChain1` with child `1` (serial `1`)
and parent `0` (serial `0`). -/
theorem c5_add_citation_twice_witness :
    ((add_citation (add_citation gChain1 1 0).snd 1 0).snd.childIds 0).count 1 = 1 ∧
    ((add_citation (add_citation gChain1 1 0).snd 1 0).snd.getNode 1).parents =
      (gChain1.getNode 1).parents ++ [0, 0] ∧
    (add_citation (add_citation gChain1 1 0).snd 1 0).snd ≠ (add_citation gChain1 1 0).snd := by
  have h := c5_add_citation_twice gChain1 1 0 1 0
    (Reach.stepCreate (CitationGraph.init 0) 1 [0] (Reach.start 0)) (by decide) (by decide)
  exact ⟨h.2.1, h.2.2.1, h.2.2.2⟩

end CitationGraph
